import Mathlib

/-!
Verification development for the semantic document retrieval engine of the
repository (`API/stores/rag/VectorStore.py` and its caller
`API/controllers/RAGController.py`).

The embedding models the FAISS backend path of `VectorStore`, which is the
backend the constructor selects whenever the `faiss` library is importable
(`backend = 'faiss'`).  `faiss.IndexFlatIP` is an exact flat inner-product
index; it is modelled as the list of vectors it holds, with exhaustive
dot-product scoring, descending score order and deterministic ties broken
by ascending vector id.  Floating point arithmetic is modelled by exact
rational arithmetic; `np.linalg.norm` is modelled by a rational square root
that is exact whenever the squared norm is a perfect rational square.
Python dictionaries are modelled as association lists with first-match
lookup, and `uuid.uuid4()` by a fresh-name counter threaded through the
store state.
-/

/-- Integer square root used to model `np.linalg.norm`: the number of
`k ≤ n` with `k * k ≤ n`, minus one, i.e. the floor of the square root.
Written without well-founded recursion so that it reduces in the kernel. -/
def natSqrt (n : ℕ) : ℕ :=
  ((List.range (n + 1)).filter (fun k => k * k ≤ n)).length - 1

/-- Rational square root, exact on perfect rational squares (models the
float `sqrt` inside `np.linalg.norm`). -/
def ratSqrt (q : ℚ) : ℚ :=
  (natSqrt q.num.toNat : ℚ) / (natSqrt q.den : ℚ)

/-- Sum of squares of a vector's components. -/
def sumSq (v : List ℚ) : ℚ :=
  (v.map (fun x => x * x)).sum

/-- `np.linalg.norm(v)`: the Euclidean norm, modelled exactly on vectors
whose squared norm is a perfect rational square. -/
def normQ (v : List ℚ) : ℚ :=
  ratSqrt (sumSq v)

/-- Dot product (`np.dot` of two equal-length vectors). -/
def dotQ (a b : List ℚ) : ℚ :=
  (List.zipWith (fun x y => x * y) a b).sum

/-- Vector normalization as in `add_documents`/`search`:
`if norm > 0: v = v / norm`. -/
def normalizeV (v : List ℚ) : List ℚ :=
  if 0 < normQ v then v.map (fun x => x / normQ v) else v

/-- The `1e-12` guard added to norms in `add_documents` line 203 and
`compact_index` lines 631/636. -/
def eps : ℚ := 1 / 10 ^ 12

/-- Scalar metadata values (`str`/`int`/`float`/`bool`, plus Python `None`
as it can appear in raw metadata before `_clean_metadata`). -/
inductive MVal where
  | s (v : String)
  | i (v : Int)
  | f (v : ℚ)
  | b (v : Bool)
  | null
  deriving DecidableEq

/-- Python truthiness of a metadata value. -/
def truthy : MVal → Bool
  | .s v => !(v == "")
  | .i v => !(v == 0)
  | .f v => !(v == 0)
  | .b v => v
  | .null => false

/-- Python `==` on metadata values: numbers compare by value across
`int`/`float`/`bool`, strings compare by content. -/
def pyEq : MVal → MVal → Bool
  | .s a, .s b => a == b
  | .i a, .i b => a == b
  | .f a, .f b => a == b
  | .b a, .b b => a == b
  | .i a, .f b => (a : ℚ) == b
  | .f a, .i b => a == (b : ℚ)
  | .b a, .i b => (if a then (1 : Int) else 0) == b
  | .i a, .b b => a == (if b then (1 : Int) else 0)
  | .b a, .f b => (if a then (1 : ℚ) else 0) == b
  | .f a, .b b => a == (if b then (1 : ℚ) else 0)
  | .null, .null => true
  | _, _ => false

/-- Python `==` lifted to optional values (`dict.get` results);
`None == None` is true in Python. -/
def pyEqO : Option MVal → Option MVal → Bool
  | some a, some b => pyEq a b
  | none, none => true
  | _, _ => false

/-- Truthiness of a `dict.get` result (absent key is `None`, falsy). -/
def otruthy : Option MVal → Bool
  | some v => truthy v
  | none => false

/-- Metadata dictionaries, modelled as association lists. -/
abbrev Metadata := List (String × MVal)

/-- `metadata.get(k)`: first-match lookup. -/
def mget (md : Metadata) (k : String) : Option MVal :=
  (md.find? (fun p => p.1 == k)).map Prod.snd

/-- `metadata[k] = v`: replace the existing binding, else append. -/
def mset (md : Metadata) (k : String) (v : MVal) : Metadata :=
  if md.any (fun p => p.1 == k) then
    md.map (fun p => if p.1 == k then (k, v) else p)
  else md ++ [(k, v)]

/-- `_clean_metadata`: scalars are kept, `None` becomes the empty string
(values of other types are stringified, which our scalar model already
covers). -/
def clean_metadata (md : Metadata) : Metadata :=
  md.map (fun p =>
    match p.2 with
    | MVal.null => (p.1, MVal.s "")
    | v => (p.1, v))

/-- A stored document record `{id, content, metadata}`. -/
structure Doc where
  id : String
  content : String
  metadata : Metadata
  deriving DecidableEq

/-- An input chunk passed to `add_documents`: `content`, an optional
`embedding` (absent key modelled as `none`) and `metadata`. -/
structure Chunk where
  content : String
  embedding : Option (List ℚ)
  metadata : Metadata
  deriving DecidableEq

/-- The FAISS `IndexFlatIP` state: its dimension and the vectors added so
far, in insertion order. -/
structure FaissIndex where
  d : ℕ
  vecs : List (List ℚ)
  deriving DecidableEq

/-- `index.ntotal`. -/
def FaissIndex.ntotal (ix : FaissIndex) : ℕ :=
  ix.vecs.length

/-- `index.add(embeddings_array)`: appends the vectors. -/
def FaissIndex.addVecs (ix : FaissIndex) (vs : List (List ℚ)) : FaissIndex :=
  { ix with vecs := ix.vecs ++ vs }

/-- Ranking order used by flat inner-product search: higher score first,
ties broken deterministically by ascending vector id. -/
def rankLE (a b : ℚ × ℕ) : Prop :=
  b.1 < a.1 ∨ (a.1 = b.1 ∧ a.2 ≤ b.2)

instance : DecidableRel rankLE := fun a b => by
  unfold rankLE; infer_instance

instance : IsTotal (ℚ × ℕ) rankLE := by
  constructor
  intro a b
  rcases lt_trichotomy a.1 b.1 with h | h | h
  · exact Or.inr (Or.inl h)
  · rcases Nat.le_total a.2 b.2 with h2 | h2
    · exact Or.inl (Or.inr ⟨h, h2⟩)
    · exact Or.inr (Or.inr ⟨h.symm, h2⟩)
  · exact Or.inl (Or.inl h)

instance : IsTrans (ℚ × ℕ) rankLE := by
  constructor
  rintro a b c (h1 | ⟨h1, h1i⟩) (h2 | ⟨h2, h2i⟩)
  · exact Or.inl (h2.trans h1)
  · exact Or.inl (h2 ▸ h1)
  · exact Or.inl (h1 ▸ h2)
  · exact Or.inr ⟨h1.trans h2, h1i.trans h2i⟩

/-- Score every stored vector against the query, tagging each with its
vector id, starting from id `i` (the exhaustive scan of flat search). -/
def scoredFrom (q : List ℚ) : ℕ → List (List ℚ) → List (ℚ × ℕ)
  | _, [] => []
  | i, v :: rest => (dotQ q v, i) :: scoredFrom q (i + 1) rest

/-- `index.search(query, k)`: exact top-`k` by inner product, descending,
ties by ascending id. -/
def FaissIndex.searchTop (ix : FaissIndex) (q : List ℚ) (k : ℕ) : List (ℚ × ℕ) :=
  (List.insertionSort rankLE (scoredFrom q 0 ix.vecs)).take k

/-- The data pickled by `_save` (`documents`, `id_to_idx`, `dimension`,
`embeddings`). -/
structure SaveData where
  documents : List Doc
  id_to_idx : List (String × ℕ)
  dimension : Option ℕ
  embeddings : List (List ℚ)
  deriving DecidableEq

/-- The in-memory state of a `VectorStore` running on the FAISS backend.
`saved` models the persisted snapshot files (`none` = no files on disk);
`uuidCtr` models the `uuid.uuid4()` fresh-name supply. -/
structure VectorStore where
  index : Option FaissIndex
  documents : List Doc
  id_to_idx : List (String × ℕ)
  dimension : Option ℕ
  embeddings : List (List ℚ)
  uuidCtr : ℕ
  saved : Option SaveData
  deriving DecidableEq

/-- A freshly constructed store with no persisted files
(`__init__` with nothing to `_load`). -/
def VectorStore.init : VectorStore :=
  { index := none, documents := [], id_to_idx := [], dimension := none,
    embeddings := [], uuidCtr := 0, saved := none }

/-- `id_to_idx[k]` lookup. -/
def dget (d : List (String × ℕ)) (k : String) : Option ℕ :=
  (d.find? (fun p => p.1 == k)).map Prod.snd

/-- `id_to_idx[k] = v`. -/
def dset (d : List (String × ℕ)) (k : String) (v : ℕ) : List (String × ℕ) :=
  if d.any (fun p => p.1 == k) then
    d.map (fun p => if p.1 == k then (k, v) else p)
  else d ++ [(k, v)]

/-- Dict comprehension `{k: v for (k, v) in l}` (later bindings win). -/
def buildDict (l : List (String × ℕ)) : List (String × ℕ) :=
  l.foldl (fun d p => dset d p.1 p.2) []

/-- The snapshot `_save` would write for the current state. -/
def dataOf (s : VectorStore) : SaveData :=
  ⟨s.documents, s.id_to_idx, s.dimension, s.embeddings⟩

/-- `_save`: on the FAISS backend the snapshot is written only when
`self.index is not None`. -/
def saveStore (s : VectorStore) : VectorStore :=
  match s.index with
  | some _ => { s with saved := some (dataOf s) }
  | none => s

/-- `document_exists_by_hash(doc_hash, username)`: scans all stored
documents (live or tombstoned); with a truthy username the tenant must
match exactly, otherwise any tenant counts. -/
def document_exists_by_hash (s : VectorStore) (doc_hash : MVal)
    (username : Option MVal) : Bool :=
  s.documents.any (fun doc =>
    pyEqO (mget doc.metadata "doc_hash") (some doc_hash) &&
    (if otruthy username then pyEqO (mget doc.metadata "username") username
     else true))

/-- `if not doc.get('embedding')`: a chunk is processable only when its
embedding is present and non-empty. -/
def hasEmb (c : Chunk) : Bool :=
  match c.embedding with
  | some v => !v.isEmpty
  | none => false

/-- The duplicate check in the `add_documents` loop: truthy `doc_hash`
plus `document_exists_by_hash` against the pre-call store. -/
def dedupSkip (s : VectorStore) (c : Chunk) : Bool :=
  match mget c.metadata "doc_hash" with
  | some h => truthy h && document_exists_by_hash s h (mget c.metadata "username")
  | none => false

/-- A chunk survives both skip guards of the `add_documents` loop. -/
def keepChunk (s : VectorStore) (c : Chunk) : Bool :=
  hasEmb c && !dedupSkip s c

/-- Stringification of a metadata value used when a supplied `id` is not a
string (document ids are modelled as strings). -/
def mvalStr : MVal → String
  | .s v => v
  | .i v => toString v
  | .f v => toString v.num ++ "/" ++ toString v.den
  | .b v => if v then "True" else "False"
  | .null => "None"

/-- `metadata.get('id', str(uuid.uuid4()))`: the supplied id, or a fresh
generated one (consuming the uuid counter). -/
def chunkId (c : Chunk) (n : ℕ) : String × ℕ :=
  match mget c.metadata "id" with
  | some v => (mvalStr v, n)
  | none => ("uuid-" ++ toString n, n + 1)

/-- Accumulator of the `add_documents` loop: collected ids, normalized
embeddings, document records to add, and the uuid counter. -/
structure AddAcc where
  ids : List String
  embs : List (List ℚ)
  docsToAdd : List Doc
  ctr : ℕ
  deriving DecidableEq

/-- One iteration of the `add_documents` loop over the input chunks. -/
def processChunk (s : VectorStore) (acc : AddAcc) (c : Chunk) : AddAcc :=
  if hasEmb c = false then acc
  else if dedupSkip s c then acc
  else
    let p := chunkId c acc.ctr
    let emb := normalizeV (c.embedding.getD [])
    { ids := acc.ids ++ [p.1],
      embs := acc.embs ++ [emb],
      docsToAdd := acc.docsToAdd ++ [⟨p.1, c.content, clean_metadata c.metadata⟩],
      ctr := p.2 }

/-- The `for i, doc in enumerate(docs_to_add)` store loop: append the
document, register its id at the new position, and (only when the
parallel `embeddings` list has fallen behind) append `normalized[i]`. -/
def storeDocs (normalized : List (List ℚ)) : ℕ → VectorStore → List Doc → VectorStore
  | _, st, [] => st
  | i, st, d :: rest =>
    let docs' := st.documents ++ [d]
    let st' : VectorStore :=
      { st with
        documents := docs',
        id_to_idx := dset st.id_to_idx d.id st.documents.length,
        embeddings :=
          if st.embeddings.length < docs'.length then
            st.embeddings ++ [normalized.getD i []]
          else st.embeddings }
    storeDocs normalized (i + 1) st' rest

/-- The tail of `add_documents` after the collection loop: dimension
bookkeeping and validation, `index.add`, the store loop, and `_save`.
A thrown `ValueError` (dimension mismatch, or `np.array` on an
inhomogeneous batch) is an `Except.error`; every raise happens before any
state mutation. -/
def addFinish (s : VectorStore) (acc : AddAcc) :
    Except String (List String × VectorStore) :=
  if acc.ids = [] then .ok ([], s)
  else
    let d0 := (acc.embs.headD []).length
    if ¬ acc.embs.all (fun e => e.length = d0) then
      .error "setting an array element with a sequence"
    else
      let normalized := acc.embs.map (fun e => e.map (fun x => x / (normQ e + eps)))
      let s1 : VectorStore :=
        match s.index with
        | none => { s with index := some ⟨d0, []⟩, dimension := some d0 }
        | some _ => s
      let proceed : VectorStore → Except String (List String × VectorStore) :=
        fun s2 =>
          match s2.index with
          | none => .error "faiss index missing"
          | some ix =>
            if ix.d ≠ d0 then .error "assert d == index.d"
            else
              let s3 : VectorStore :=
                { s2 with index := some (ix.addVecs acc.embs),
                          embeddings := s2.embeddings ++ normalized }
              let s4 := storeDocs normalized 0 s3 acc.docsToAdd
              .ok (acc.ids, saveStore { s4 with uuidCtr := acc.ctr })
      if some d0 ≠ s1.dimension then
        if s1.index = none ∨ s1.documents = [] then
          proceed { s1 with index := some ⟨d0, []⟩, dimension := some d0 }
        else .error "Embedding dimension mismatch between provider and vector store"
      else proceed s1

/-- `add_documents(documents) -> ids` on the FAISS backend. -/
def add_documents (s : VectorStore) (chunks : List Chunk) :
    Except String (List String × VectorStore) :=
  if chunks = [] then .ok ([], s)
  else addFinish s (chunks.foldl (processChunk s) ⟨[], [], [], s.uuidCtr⟩)

/-- A ranked search result `{id, content, metadata, score}`. -/
structure SearchRes where
  id : String
  content : String
  metadata : Metadata
  score : ℚ
  deriving DecidableEq

/-- Exact-match conjunction of a metadata filter. -/
def matchesFilter (md : Metadata) (fm : Metadata) : Bool :=
  fm.all (fun kv => pyEqO (mget md kv.1) (some kv.2))

/-- Formatting of one raw hit in `search`: out-of-range ids are dropped,
tombstoned documents are dropped, and with a truthy filter the exact-match
conjunction must hold. -/
def formatHit (s : VectorStore) (fm : Option Metadata) (h : ℚ × ℕ) :
    Option SearchRes :=
  match s.documents.get? h.2 with
  | none => none
  | some doc =>
    if otruthy (mget doc.metadata "deleted") then none
    else
      match fm with
      | some f =>
        if f = [] then some ⟨doc.id, doc.content, doc.metadata, h.1⟩
        else if matchesFilter doc.metadata f then
          some ⟨doc.id, doc.content, doc.metadata, h.1⟩
        else none
      | none => some ⟨doc.id, doc.content, doc.metadata, h.1⟩

/-- `search(query_embedding, top_k, filter_metadata)` on the FAISS
backend: empty result on a missing/empty index, normalized query,
`index.search` with `min(top_k, ntotal)`, then per-hit filtering. -/
def search (s : VectorStore) (query_embedding : List ℚ) (top_k : ℕ)
    (filter_metadata : Option Metadata) : List SearchRes :=
  match s.index with
  | none => []
  | some ix =>
    if ix.ntotal = 0 then []
    else
      let query := normalizeV query_embedding
      (ix.searchTop query (min top_k ix.ntotal)).filterMap
        (formatHit s filter_metadata)

/-- `get_document(doc_id)`: live lookup through `id_to_idx`; an
out-of-range position raises `IndexError`, caught and turned into `None`. -/
def get_document (s : VectorStore) (doc_id : String) : Option Doc :=
  match dget s.id_to_idx doc_id with
  | none => none
  | some idx =>
    match s.documents.get? idx with
    | none => none
    | some doc =>
      if otruthy (mget doc.metadata "deleted") then none
      else some ⟨doc.id, doc.content, doc.metadata⟩

/-- `count_documents()`: number of non-tombstoned documents. -/
def count_documents (s : VectorStore) : ℕ :=
  (s.documents.filter
    (fun doc => !otruthy (mget doc.metadata "deleted"))).length

/-- `reset_collection()`: drop the index, the table and the id map, clear
the dimension and delete the persisted files.  (The parallel `embeddings`
list is not cleared by the source.) -/
def reset_collection (s : VectorStore) : VectorStore :=
  { s with index := none, documents := [], id_to_idx := [],
           dimension := none, saved := none }

/-- The collection loop of `compact_index`: walk the documents with their
positions, keeping non-tombstoned records, and keep the aligned embedding
whenever `i < len(embeddings)` and the entry is non-empty. -/
def collectActive (E : List (List ℚ)) : ℕ → List Doc → List Doc × List (List ℚ)
  | _, [] => ([], [])
  | i, d :: rest =>
    let r := collectActive E (i + 1) rest
    if otruthy (mget d.metadata "deleted") then r
    else
      let es :=
        match E.get? i with
        | some e => if e.isEmpty then r.2 else e :: r.2
        | none => r.2
      (d :: r.1, es)

/-- `compact_index()`: rebuild documents, `id_to_idx`, embeddings and the
FAISS index from the non-tombstoned records; with no survivors the
collection is reset instead.  The returned flag is `false` when the
rebuild raises (`IndexError` on a missing first embedding, or `np.vstack`
on inhomogeneous embeddings) — mutations made before the raise persist,
as in the source. -/
def compact_index (s : VectorStore) : VectorStore × Bool :=
  let r := collectActive s.embeddings 0 s.documents
  if r.1 = [] then (reset_collection s, true)
  else
    let s1 : VectorStore :=
      { s with documents := r.1,
               id_to_idx := buildDict ((List.range r.1.length).zip (r.1.map Doc.id)
                 |>.map (fun p => (p.2, p.1))),
               embeddings := r.2 }
    match r.2 with
    | [] => (s1, false)
    | e0 :: _ =>
      let dim := e0.length
      let s2 : VectorStore := { s1 with index := some ⟨dim, []⟩, dimension := some dim }
      if ¬ r.2.all (fun e => e.length = dim) then (s2, false)
      else
        let embArr := r.2.map (fun e => e.map (fun x => x / (normQ e + eps)))
        let s3 : VectorStore := { s2 with index := some ⟨dim, embArr⟩ }
        (saveStore s3, true)

/-- `delete_document(doc_id)`: tombstone the record (clear content, keep
metadata, set `deleted`), drop the id from `id_to_idx`, save, then try to
compact (a compaction failure is only logged).  An unknown id returns
`False`; an out-of-range stored position raises `IndexError`, caught and
returned as `False` before any mutation. -/
def delete_document (s : VectorStore) (doc_id : String) : Bool × VectorStore :=
  match dget s.id_to_idx doc_id with
  | none => (false, s)
  | some idx =>
    match s.documents.get? idx with
    | none => (false, s)
    | some existing =>
      let meta := mset existing.metadata "deleted" (MVal.b true)
      let s1 : VectorStore :=
        { s with documents := s.documents.set idx ⟨doc_id, "", meta⟩,
                 id_to_idx := s.id_to_idx.filter (fun p => !(p.1 == doc_id)) }
      let s2 := saveStore s1
      (true, (compact_index s2).1)

/-- `RAGController.search_documents`: with a truthy username the search is
scoped by the exact-match filter `{'username': username}`. -/
def search_documents (s : VectorStore) (username : Option String)
    (q : List ℚ) (top_k : ℕ) : List SearchRes :=
  let fm : Option Metadata :=
    match username with
    | some u => if u = "" then none else some [("username", MVal.s u)]
    | none => none
  search s q top_k fm

/-- The structured result of `RAGController.index_document`:
a success flag plus the stored ids. -/
structure IndexResult where
  success : Bool
  doc_ids : List String
  deriving DecidableEq

/-- `RAGController.index_document`, restricted to the vector-store step:
every exception from `add_documents` is caught and returned as a
structured `{'success': False, ...}` result, leaving the store unchanged
(the source raises before mutating on every failure path). -/
def index_document (s : VectorStore) (chunks : List Chunk) :
    IndexResult × VectorStore :=
  match add_documents s chunks with
  | .ok (ids, s') => (⟨true, ids⟩, s')
  | .error _ => (⟨false, []⟩, s)

/-- Liveness of a stored record: its tombstone flag is not truthy. -/
def isLive (d : Doc) : Bool :=
  !otruthy (mget d.metadata "deleted")

/-- The stored documents have pairwise distinct ids. -/
def IdsNodup (s : VectorStore) : Prop :=
  (s.documents.map Doc.id).Nodup

/-- The parallel `embeddings` list is aligned with `documents` and holds
non-empty vectors of one common positive length. -/
def EmbAligned (s : VectorStore) : Prop :=
  s.embeddings.length = s.documents.length ∧
  ∃ d, 0 < d ∧ ∀ e ∈ s.embeddings, e.length = d

/-- Position of the document bearing a given id. -/
def docPos (s : VectorStore) (i : String) : ℕ :=
  s.documents.findIdx (fun d => d.id == i)

/-- Chunk with content but a missing embedding key. -/
def cNoEmb : Chunk := ⟨"empty", none, []⟩

/-- A well-formed one-dimensional chunk. -/
def cGood : Chunk := ⟨"good", some [1], []⟩

/-- A chunk whose embedding length conflicts with `cGood`. -/
def cBad : Chunk := ⟨"bad", some [1, 1], []⟩

/-- A chunk carrying a dedup hash and a tenant. -/
def cDup : Chunk :=
  ⟨"dup", some [1],
   [("id", MVal.s "x"), ("doc_hash", MVal.s "H"), ("username", MVal.s "alice")]⟩

/-- A second chunk bearing the same `(doc_hash, username)` pair as `cDup`
but different id and content. -/
def cDup2 : Chunk :=
  ⟨"dup2", some [1],
   [("id", MVal.s "y"), ("doc_hash", MVal.s "H"), ("username", MVal.s "alice")]⟩

/-- Store holding two live aligned one-dimensional documents. -/
def sDel : VectorStore :=
  { index := some ⟨1, [[1], [1]]⟩,
    documents := [⟨"a", "ca", []⟩, ⟨"b", "cb", []⟩],
    id_to_idx := [("a", 0), ("b", 1)], dimension := some 1,
    embeddings := [[1], [1]], uuidCtr := 0, saved := none }

/-- Store holding one live document and one tombstone. -/
def sComp : VectorStore :=
  { index := some ⟨1, [[1], [1]]⟩,
    documents := [⟨"a", "ca", []⟩,
                  ⟨"b", "", [("deleted", MVal.b true), ("username", MVal.s "bob")]⟩],
    id_to_idx := [("a", 0)], dimension := some 1,
    embeddings := [[1], [1]], uuidCtr := 0, saved := none }

/-- Non-empty store whose dimension is established at 2. -/
def sDim : VectorStore :=
  { index := some ⟨2, [[1, 0]]⟩, documents := [⟨"a", "ca", []⟩],
    id_to_idx := [("a", 0)], dimension := some 2,
    embeddings := [[1, 0]], uuidCtr := 0, saved := none }

/-- Empty store whose dimension is nevertheless established at 2. -/
def sDimEmpty : VectorStore :=
  { index := some ⟨2, []⟩, documents := [], id_to_idx := [],
    dimension := some 2, embeddings := [], uuidCtr := 0, saved := none }

/-- Store already holding a document with hash `H` owned by `alice`. -/
def sHash : VectorStore :=
  { index := some ⟨1, [[1]]⟩,
    documents := [⟨"a", "ca", [("doc_hash", MVal.s "H"), ("username", MVal.s "alice")]⟩],
    id_to_idx := [("a", 0)], dimension := some 1,
    embeddings := [[1]], uuidCtr := 0, saved := none }

/-- Store holding a single document owned by tenant `alice`. -/
def sAlice : VectorStore :=
  { index := some ⟨1, [[1]]⟩,
    documents := [⟨"a", "ca", [("username", MVal.s "alice")]⟩],
    id_to_idx := [("a", 0)], dimension := some 1,
    embeddings := [[1]], uuidCtr := 0, saved := none }

/-- The ranked result `sAlice` returns for the query `[1]`. -/
def rAlice : SearchRes :=
  ⟨"a", "ca", [("username", MVal.s "alice")], dotQ (normalizeV [1]) [1]⟩

theorem normalizeV_length (v : List ℚ) : (normalizeV v).length = v.length := by
  unfold normalizeV
  split <;> simp

theorem ratSqrt_nonneg (q : ℚ) : 0 ≤ ratSqrt q := by
  unfold ratSqrt
  positivity

theorem mget_clean (md : Metadata) (k : String) :
    otruthy (mget (clean_metadata md) k) = otruthy (mget md k) := by
  induction md with
  | nil => rfl
  | cons p rest ih =>
    by_cases hk : p.1 = k
    · cases hv : p.2 <;>
        simp [clean_metadata, mget, List.find?, hk, hv, otruthy, truthy]
    · have hk' : (p.1 == k) = false := by simp [hk]
      cases hv : p.2 <;>
        simpa [clean_metadata, mget, List.find?, hk', hv] using ih

theorem mget_mset_self (md : Metadata) (k : String) (v : MVal) :
    mget (mset md k v) k = some v := by
  induction md with
  | nil => simp [mset, mget, List.find?]
  | cons p rest ih =>
    by_cases hk : p.1 = k
    · simp [mset, mget, List.find?, hk]
    · have hk' : (p.1 == k) = false := by simp [hk]
      by_cases ha : rest.any (fun q => q.1 == k)
      · have hms : mset (p :: rest) k v = p :: mset rest k v := by
          simp [mset, hk', ha, hk]
        rw [hms]
        simpa [mget, List.find?, hk'] using ih
      · have hms : mset (p :: rest) k v = p :: mset rest k v := by
          simp [mset, hk', ha, hk]
        rw [hms]
        simpa [mget, List.find?, hk'] using ih

theorem processChunk_skip (s : VectorStore) (acc : AddAcc) (c : Chunk)
    (h : keepChunk s c = false) : processChunk s acc c = acc := by
  unfold processChunk
  rcases he : hasEmb c with _ | _
  · simp
  · have hd : dedupSkip s c = true := by
      have := h
      unfold keepChunk at this
      simpa [he] using this
    simp [he, hd]

theorem foldl_processChunk_filter (s : VectorStore) (chunks : List Chunk) :
    ∀ acc : AddAcc,
      (chunks.filter (keepChunk s)).foldl (processChunk s) acc =
        chunks.foldl (processChunk s) acc := by
  induction chunks with
  | nil => intro acc; rfl
  | cons c rest ih =>
    intro acc
    by_cases hc : keepChunk s c = true
    · simp only [List.filter_cons, hc, if_pos, List.foldl_cons]
      exact ih _
    · have hc' : keepChunk s c = false := by
        cases h : keepChunk s c
        · rfl
        · exact absurd h hc
      simp only [List.filter_cons, hc', List.foldl_cons,
        processChunk_skip s acc c hc', Bool.false_eq_true, if_false]
      exact ih _

theorem processChunk_ids_mono (s : VectorStore) (chunks : List Chunk) :
    ∀ acc : AddAcc, ∃ l, (chunks.foldl (processChunk s) acc).ids = acc.ids ++ l := by
  induction chunks with
  | nil => intro acc; exact ⟨[], by simp⟩
  | cons c rest ih =>
    intro acc
    by_cases hc : keepChunk s c = false
    · rw [List.foldl_cons, processChunk_skip s acc c hc]
      exact ih acc
    · have hc' : keepChunk s c = true := by
        cases h : keepChunk s c
        · exact absurd h hc
        · rfl
      have he : hasEmb c = true := by
        have := hc'
        unfold keepChunk at this
        exact (Bool.and_eq_true _ _ |>.mp this).1
      have hd : dedupSkip s c = false := by
        have := hc'
        unfold keepChunk at this
        have := (Bool.and_eq_true _ _ |>.mp this).2
        simpa using this
      rw [List.foldl_cons]
      obtain ⟨l, hl⟩ := ih (processChunk s acc c)
      refine ⟨(chunkId c acc.ctr).1 :: l, ?_⟩
      rw [hl]
      simp [processChunk, he, hd]

theorem addFinish_nil_ids (s : VectorStore) (acc : AddAcc) (h : acc.ids = []) :
    addFinish s acc = .ok ([], s) := by
  unfold addFinish
  simp [h]

/-- The collection loop of `add_documents` ignores chunks that fail either
skip guard: the call behaves exactly as if they were absent. -/
theorem add_documents_filter (s : VectorStore) (chunks : List Chunk) :
    add_documents s chunks = add_documents s (chunks.filter (keepChunk s)) := by
  unfold add_documents
  by_cases h0 : chunks = []
  · subst h0; rfl
  · by_cases hf : chunks.filter (keepChunk s) = []
    · have hfold : chunks.foldl (processChunk s) ⟨[], [], [], s.uuidCtr⟩ =
          (⟨[], [], [], s.uuidCtr⟩ : AddAcc) := by
        rw [← foldl_processChunk_filter s chunks, hf]
        rfl
      rw [if_neg h0, hf, if_pos rfl, hfold, addFinish_nil_ids s _ rfl]
    · simp only [h0, if_false, hf]
      rw [← foldl_processChunk_filter s chunks]

theorem collectActive_fst (E : List (List ℚ)) (l : List Doc) :
    ∀ i, (collectActive E i l).1 = l.filter isLive := by
  induction l with
  | nil => intro i; rfl
  | cons d rest ih =>
    intro i
    unfold collectActive
    by_cases hd : otruthy (mget d.metadata "deleted") = true
    · simp [hd, isLive, ih (i + 1)]
    · have hd' : otruthy (mget d.metadata "deleted") = false := by
        cases h : otruthy (mget d.metadata "deleted")
        · rfl
        · exact absurd h hd
      simp [hd', isLive, ih (i + 1)]

theorem compact_documents (s : VectorStore) :
    (compact_index s).1.documents = s.documents.filter isLive := by
  unfold compact_index
  by_cases h : (collectActive s.embeddings 0 s.documents).1 = []
  · simp only [h, if_pos]
    rw [← collectActive_fst s.embeddings s.documents 0, h]
    rfl
  · simp only [h, if_false]
    rw [← collectActive_fst s.embeddings s.documents 0]
    rcases hsnd : (collectActive s.embeddings 0 s.documents).2 with _ | ⟨e0, es⟩
    · simp [hsnd]
    · simp only [hsnd]
      by_cases hall : ¬ (e0 :: es).all (fun e => e.length = e0.length)
      · simp [hall, hsnd]
      · simp [hall, hsnd, saveStore]
        split <;> rfl

theorem filter_isLive_idem (l : List Doc) :
    (l.filter isLive).filter isLive = l.filter isLive := by
  induction l with
  | nil => rfl
  | cons d rest ih =>
    by_cases hd : isLive d = true
    · simp [List.filter_cons, hd, ih]
    · have hd' : isLive d = false := by
        cases h : isLive d
        · rfl
        · exact absurd h hd
      simp [List.filter_cons, hd', ih]

theorem count_documents_eq_filter (s : VectorStore) :
    count_documents s = (s.documents.filter isLive).length := by
  unfold count_documents isLive
  rfl

theorem compact_count (s : VectorStore) :
    count_documents (compact_index s).1 = count_documents s := by
  rw [count_documents_eq_filter, count_documents_eq_filter, compact_documents,
    filter_isLive_idem]

/-- C8: after any run of compaction, the live-document count equals the
count of non-tombstoned entries before compaction, and the live documents
themselves — their content and metadata — are exactly the non-tombstoned
records that were present before the rebuild, in order. -/
theorem c8_compaction_conservation (s : VectorStore) :
    count_documents (compact_index s).1 = count_documents s ∧
    (compact_index s).1.documents.filter isLive = s.documents.filter isLive := by
  refine ⟨compact_count s, ?_⟩
  rw [compact_documents, filter_isLive_idem]

theorem filter_keep_filter_hasEmb (s : VectorStore) (l : List Chunk) :
    (l.filter hasEmb).filter (keepChunk s) = l.filter (keepChunk s) := by
  induction l with
  | nil => rfl
  | cons c rest ih =>
    by_cases he : hasEmb c = true
    · simp [List.filter_cons, he, ih]
    · have he' : hasEmb c = false := by
        cases h : hasEmb c
        · rfl
        · exact absurd h he
      have hk : keepChunk s c = false := by
        unfold keepChunk
        simp [he']
      simp [List.filter_cons, he', hk, ih]

theorem filter_keep_filter_noEmb (s : VectorStore) (l : List Chunk) :
    (l.filter (fun c => !hasEmb c)).filter (keepChunk s) = [] := by
  induction l with
  | nil => rfl
  | cons c rest ih =>
    by_cases he : hasEmb c = true
    · simp [List.filter_cons, he, ih]
    · have he' : hasEmb c = false := by
        cases h : hasEmb c
        · rfl
        · exact absurd h he
      have hk : keepChunk s c = false := by
        unfold keepChunk
        simp [he']
      simp [List.filter_cons, he', hk, ih]

/-- C10: chunks with a missing or empty embedding are silently skipped —
the call behaves exactly as if they were absent, so they are not stored,
contribute no id, and change nothing; an empty input returns an empty id
list with the state untouched, and so does an input consisting only of
embedding-less chunks. -/
theorem c10_missing_embedding_skipped (s : VectorStore) (chunks : List Chunk) :
    add_documents s chunks = add_documents s (chunks.filter hasEmb) ∧
    add_documents s [] = .ok ([], s) ∧
    add_documents s (chunks.filter (fun c => !hasEmb c)) = .ok ([], s) := by
  refine ⟨?_, rfl, ?_⟩
  · rw [add_documents_filter s chunks, add_documents_filter s (chunks.filter hasEmb),
      filter_keep_filter_hasEmb]
  · rw [add_documents_filter s (chunks.filter (fun c => !hasEmb c)),
      filter_keep_filter_noEmb]
    rfl

theorem addDoc_c6_error : add_documents VectorStore.init [cGood, cBad] =
    .error "setting an array element with a sequence" := by
  have hfold : [cGood, cBad].foldl (processChunk VectorStore.init) ⟨[], [], [], 0⟩ =
      (⟨["uuid-" ++ toString 0, "uuid-" ++ toString 1],
        [normalizeV [1], normalizeV [(1 : ℚ), 1]],
        [⟨"uuid-" ++ toString 0, "good", []⟩, ⟨"uuid-" ++ toString 1, "bad", []⟩],
        2⟩ : AddAcc) := by
    simp [processChunk, hasEmb, dedupSkip, mget, chunkId, cGood, cBad,
      document_exists_by_hash, VectorStore.init, clean_metadata]
  show addFinish VectorStore.init ([cGood, cBad].foldl (processChunk VectorStore.init)
    ⟨[], [], [], 0⟩) = .error "setting an array element with a sequence"
  rw [hfold]
  unfold addFinish
  simp [normalizeV_length]

/-- C6 counterexample: a batch holding one well-formed chunk and one chunk
whose embedding length is inconsistent is aborted as a whole — the
well-formed chunk is not stored either, no ids are returned, and the store
is unchanged — contradicting the claim that a single malformed chunk does
not abort the batch. -/
theorem c6_counterexample :
    index_document VectorStore.init [cGood, cBad] = (⟨false, []⟩, VectorStore.init) ∧
    count_documents (index_document VectorStore.init [cGood, cBad]).2 = 0 := by
  have h : index_document VectorStore.init [cGood, cBad] = (⟨false, []⟩, VectorStore.init) := by
    unfold index_document
    rw [addDoc_c6_error]
  refine ⟨h, ?_⟩
  rw [h]
  rfl

/-- C6 (amended): chunks rejected by the per-chunk skip guards (missing or
empty embedding, duplicate hash) are skipped without aborting the call,
which behaves as if they were absent; and the controller always returns a
structured result — either success with the stored ids, or a failure flag
with the store left unchanged (a chunk whose embedding length conflicts
with the batch or the established dimension makes the whole call fail that
way, storing nothing). -/
theorem c6_structured_errors (s : VectorStore) (chunks : List Chunk) :
    add_documents s chunks = add_documents s (chunks.filter (keepChunk s)) ∧
    ((index_document s chunks).1.success = true ∨
      ((index_document s chunks).1 = ⟨false, []⟩ ∧ (index_document s chunks).2 = s)) := by
  refine ⟨add_documents_filter s chunks, ?_⟩
  unfold index_document
  rcases h : add_documents s chunks with e | ⟨ids, s'⟩
  · exact Or.inr ⟨rfl, rfl⟩
  · exact Or.inl rfl

/-- C4 counterexample: two chunks sharing `doc_hash = "H"` and
`username = "alice"` presented in the same `add_documents` call are both
stored — the duplicate check only consults the pre-call store — so after
the call the count is 2 and two stored documents bear the pair, refuting
the claim that only the first successfully inserted chunk with a given
`(doc_hash, username)` is stored. -/
theorem c4_counterexample :
    (add_documents VectorStore.init [cDup, cDup2]).toOption.map
      (fun p => (p.1, count_documents p.2,
        (p.2.documents.filter (fun d =>
          pyEqO (mget d.metadata "doc_hash") (some (MVal.s "H")) &&
          pyEqO (mget d.metadata "username") (some (MVal.s "alice")))).length))
      = some (["x", "y"], 2, 2) := by
  have hfold : [cDup, cDup2].foldl (processChunk VectorStore.init) ⟨[], [], [], 0⟩ =
      (⟨["x", "y"], [normalizeV [1], normalizeV [1]],
        [⟨"x", "dup", cDup.metadata⟩, ⟨"y", "dup2", cDup2.metadata⟩], 0⟩ : AddAcc) := by
    simp [processChunk, hasEmb, dedupSkip, mget, chunkId, cDup, cDup2,
      document_exists_by_hash, VectorStore.init, clean_metadata, mvalStr]
  have hstep : add_documents VectorStore.init [cDup, cDup2] =
      addFinish VectorStore.init
        ([cDup, cDup2].foldl (processChunk VectorStore.init) ⟨[], [], [], 0⟩) := by
    unfold add_documents
    simp [VectorStore.init]
  rw [hstep, hfold]
  unfold addFinish
  simp [normalizeV_length, storeDocs, FaissIndex.addVecs, saveStore, dataOf, dset,
    count_documents, pyEqO, pyEq, mget, cDup, cDup2, otruthy, VectorStore.init,
    Except.toOption]

/-- C4 (amended): deduplication acts across calls — a chunk whose truthy
`doc_hash` already matches a stored document (live or tombstoned, with the
tenant-scoping rule of `document_exists_by_hash`) is skipped, so the call
behaves exactly as if the chunk were absent; and the duplicate check holds
precisely when some stored document, live or tombstoned, bears the same
hash, with an exact tenant match required when a truthy username is given
and any tenant counting otherwise.  (Duplicates presented inside one batch
are not detected against each other.) -/
theorem c4_dedup_across_calls :
    (∀ (s : VectorStore) (c : Chunk) (pre post : List Chunk) (h : MVal),
      mget c.metadata "doc_hash" = some h → truthy h = true →
      document_exists_by_hash s h (mget c.metadata "username") = true →
      add_documents s (pre ++ c :: post) = add_documents s (pre ++ post)) ∧
    (∀ (s : VectorStore) (h : MVal) (u : Option MVal),
      document_exists_by_hash s h u = true ↔
        ∃ doc ∈ s.documents,
          pyEqO (mget doc.metadata "doc_hash") (some h) = true ∧
          (otruthy u = true → pyEqO (mget doc.metadata "username") u = true)) := by
  constructor
  · intro s c pre post h hh ht hex
    have hskip : dedupSkip s c = true := by
      unfold dedupSkip
      rw [hh]
      simp only [ht, hex, Bool.and_self]
    have hkeep : keepChunk s c = false := by
      unfold keepChunk
      rw [hskip]
      simp
    rw [add_documents_filter s (pre ++ c :: post),
      add_documents_filter s (pre ++ post)]
    have hfe : (pre ++ c :: post).filter (keepChunk s) =
        (pre ++ post).filter (keepChunk s) := by
      simp [List.filter_append, List.filter_cons, hkeep]
    rw [hfe]
  · intro s h u
    unfold document_exists_by_hash
    rw [List.any_eq_true]
    constructor
    · rintro ⟨doc, hmem, hp⟩
      rw [Bool.and_eq_true] at hp
      refine ⟨doc, hmem, hp.1, ?_⟩
      intro hu
      have := hp.2
      rw [hu] at this
      simpa using this
    · rintro ⟨doc, hmem, h1, h2⟩
      refine ⟨doc, hmem, ?_⟩
      rw [Bool.and_eq_true]
      refine ⟨h1, ?_⟩
      cases hu : otruthy u
      · simp
      · simpa using h2 hu

/-- Witness for the amended C4 theorem: the store `sHash` already holds a
document with hash `H` owned by `alice`, so presenting `cDup` again is a
no-op, and the duplicate check is discharged concretely. -/
theorem c4_dedup_witness :
    mget cDup.metadata "doc_hash" = some (MVal.s "H") ∧
    truthy (MVal.s "H") = true ∧
    document_exists_by_hash sHash (MVal.s "H") (mget cDup.metadata "username") = true ∧
    add_documents sHash [cDup] = add_documents sHash [] ∧
    (document_exists_by_hash sHash (MVal.s "H") (some (MVal.s "alice")) = true ↔
      ∃ doc ∈ sHash.documents,
        pyEqO (mget doc.metadata "doc_hash") (some (MVal.s "H")) = true ∧
        (otruthy (some (MVal.s "alice")) = true →
          pyEqO (mget doc.metadata "username") (some (MVal.s "alice")) = true)) :=
  ⟨rfl, rfl, rfl,
    c4_dedup_across_calls.1 sHash cDup [] [] (MVal.s "H") rfl rfl rfl,
    c4_dedup_across_calls.2 sHash (MVal.s "H") (some (MVal.s "alice"))⟩

theorem storeDocs_dimension (normalized : List (List ℚ)) :
    ∀ (i : ℕ) (st : VectorStore) (l : List Doc),
      (storeDocs normalized i st l).dimension = st.dimension := by
  intro i st l
  induction l generalizing i st with
  | nil => rfl
  | cons d rest ih => exact ih _ _

theorem saveStore_dimension (s : VectorStore) :
    (saveStore s).dimension = s.dimension := by
  unfold saveStore
  split <;> rfl

theorem foldl_single_kept (s : VectorStore) (c : Chunk) (e : List ℚ)
    (he : hasEmb c = true) (hd : dedupSkip s c = false) (hemb : c.embedding = some e) :
    [c].foldl (processChunk s) ⟨[], [], [], s.uuidCtr⟩ =
      ⟨[(chunkId c s.uuidCtr).1], [normalizeV e],
       [⟨(chunkId c s.uuidCtr).1, c.content, clean_metadata c.metadata⟩],
       (chunkId c s.uuidCtr).2⟩ := by
  simp [processChunk, he, hd, hemb]

theorem add_single_kept (s : VectorStore) (c : Chunk) (e : List ℚ)
    (he : hasEmb c = true) (hd : dedupSkip s c = false) (hemb : c.embedding = some e) :
    add_documents s [c] =
      addFinish s ⟨[(chunkId c s.uuidCtr).1], [normalizeV e],
        [⟨(chunkId c s.uuidCtr).1, c.content, clean_metadata c.metadata⟩],
        (chunkId c s.uuidCtr).2⟩ := by
  unfold add_documents
  rw [if_neg (by simp)]
  rw [foldl_single_kept s c e he hd hemb]

/-- C3: with a dimension already established and the collection non-empty,
a chunk of a different embedding length makes `add_documents` fail with
the dimension-mismatch error, leaving the store (hence the count)
unchanged; with the collection empty, the call instead succeeds and adopts
the new dimension. -/
theorem c3_dimension_enforcement :
    (∀ (s : VectorStore) (c : Chunk) (e : List ℚ) (ix : FaissIndex) (d0 : ℕ),
      s.index = some ix → s.dimension = some d0 → s.documents ≠ [] →
      keepChunk s c = true → c.embedding = some e → e.length ≠ d0 →
      add_documents s [c] =
        .error "Embedding dimension mismatch between provider and vector store" ∧
      (index_document s [c]).2 = s ∧
      count_documents (index_document s [c]).2 = count_documents s) ∧
    (∀ (s : VectorStore) (c : Chunk) (e : List ℚ) (d0 : ℕ),
      s.documents = [] → s.dimension = some d0 →
      keepChunk s c = true → c.embedding = some e → e.length ≠ d0 →
      ∃ ids s', add_documents s [c] = .ok (ids, s') ∧
        s'.dimension = some e.length) := by
  constructor
  · intro s c e ix d0 hix hdim hne hkeep hemb hlen
    have hk := hkeep
    unfold keepChunk at hk
    rw [Bool.and_eq_true] at hk
    have he : hasEmb c = true := hk.1
    have hd : dedupSkip s c = false := by
      have := hk.2
      cases h : dedupSkip s c
      · rfl
      · rw [h] at this; exact absurd this (by simp)
    have herr : add_documents s [c] =
        .error "Embedding dimension mismatch between provider and vector store" := by
      rw [add_single_kept s c e he hd hemb]
      unfold addFinish
      rw [if_neg (by simp)]
      rw [if_neg (by simp [normalizeV_length])]
      simp only [List.headD_cons, normalizeV_length, hix, hdim]
      rw [if_pos (by simp [hlen])]
      rw [if_neg (by simp [hix, hne])]
    refine ⟨herr, ?_, ?_⟩
    · unfold index_document
      rw [herr]
    · unfold index_document
      rw [herr]
  · intro s c e d0 hdocs hdim hkeep hemb hlen
    have hk := hkeep
    unfold keepChunk at hk
    rw [Bool.and_eq_true] at hk
    have he : hasEmb c = true := hk.1
    have hd : dedupSkip s c = false := by
      have := hk.2
      cases h : dedupSkip s c
      · rfl
      · rw [h] at this; exact absurd this (by simp)
    rw [add_single_kept s c e he hd hemb]
    unfold addFinish
    rw [if_neg (by simp)]
    rw [if_neg (by simp [normalizeV_length])]
    simp only [List.headD_cons, normalizeV_length]
    rcases hix : s.index with _ | ix
    · simp only [hix]
      rw [if_neg (by simp)]
      rw [if_neg (by simp)]
      refine ⟨_, _, rfl, ?_⟩
      rw [saveStore_dimension]
      rw [show (({ storeDocs _ 0 _ _ with uuidCtr := _ } : VectorStore)).dimension =
        (storeDocs _ 0 _ _).dimension from rfl]
      rw [storeDocs_dimension]
    · simp only [hix]
      rw [if_pos (by simp [hdim, hlen])]
      rw [if_pos (Or.inr hdocs)]
      rw [if_neg (by simp)]
      refine ⟨_, _, rfl, ?_⟩
      rw [saveStore_dimension]
      rw [show (({ storeDocs _ 0 _ _ with uuidCtr := _ } : VectorStore)).dimension =
        (storeDocs _ 0 _ _).dimension from rfl]
      rw [storeDocs_dimension]

/-- Witness for C3: the one-dimensional chunk `cGood` is rejected with the
mismatch error by the non-empty dimension-2 store `sDim` and leaves it
unchanged, while the empty dimension-2 store `sDimEmpty` accepts it and
adopts dimension 1. -/
theorem c3_witness :
    (sDim.documents ≠ [] ∧ keepChunk sDim cGood = true ∧
      ([1] : List ℚ).length ≠ 2 ∧
      (add_documents sDim [cGood] =
        .error "Embedding dimension mismatch between provider and vector store" ∧
       (index_document sDim [cGood]).2 = sDim ∧
       count_documents (index_document sDim [cGood]).2 = count_documents sDim)) ∧
    (sDimEmpty.documents = [] ∧ keepChunk sDimEmpty cGood = true ∧
      ∃ ids s', add_documents sDimEmpty [cGood] = .ok (ids, s') ∧
        s'.dimension = some ([1] : List ℚ).length) :=
  ⟨⟨by simp [sDim], rfl, by decide,
    c3_dimension_enforcement.1 sDim cGood [1] ⟨2, [[1, 0]]⟩ 2 rfl rfl
      (by simp [sDim]) rfl rfl (by decide)⟩,
   ⟨rfl, rfl,
    c3_dimension_enforcement.2 sDimEmpty cGood [1] 2 rfl rfl rfl rfl (by decide)⟩⟩

theorem formatHit_filter (s : VectorStore) (fm : Metadata) (h : ℚ × ℕ)
    (r : SearchRes) (hf : formatHit s (some fm) h = some r) (hne : fm ≠ []) :
    matchesFilter r.metadata fm = true := by
  unfold formatHit at hf
  split at hf
  · exact absurd hf (by simp)
  · split at hf
    · exact absurd hf (by simp)
    · rename_i x doc heq hdel
      have hf2 : (if fm = [] then
            some (⟨doc.id, doc.content, doc.metadata, h.1⟩ : SearchRes)
          else if matchesFilter doc.metadata fm = true then
            some ⟨doc.id, doc.content, doc.metadata, h.1⟩
          else none) = some r := hf
      rw [if_neg hne] at hf2
      split at hf2
      · have hmd : r.metadata = doc.metadata :=
          congrArg SearchRes.metadata (Option.some.inj hf2).symm
        rw [hmd]
        assumption
      · exact absurd hf2 (by simp)

theorem search_filter_sound (s : VectorStore) (fm : Metadata) (q : List ℚ)
    (k : ℕ) (r : SearchRes) (hne : fm ≠ []) (hr : r ∈ search s q k (some fm)) :
    matchesFilter r.metadata fm = true := by
  unfold search at hr
  rcases hix : s.index with _ | ix
  · rw [hix] at hr; exact absurd hr (by simp)
  · rw [hix] at hr
    have hr2 : r ∈ (if ix.ntotal = 0 then ([] : List SearchRes)
        else (ix.searchTop (normalizeV q) (min k ix.ntotal)).filterMap
          (formatHit s (some fm))) := hr
    by_cases h0 : ix.ntotal = 0
    · rw [if_pos h0] at hr2; exact absurd hr2 (by simp)
    · rw [if_neg h0] at hr2
      obtain ⟨h, _, hf⟩ := List.mem_filterMap.mp hr2
      exact formatHit_filter s fm h r hf hne

/-- C5: a search carrying a tenant filter never returns a document of
another tenant — every returned result satisfies the exact-match
conjunction of the supplied metadata filter, in particular equality of
the `username` metadata with the requested tenant. -/
theorem c5_tenant_isolation :
    (∀ (s : VectorStore) (A : String) (q : List ℚ) (k : ℕ) (r : SearchRes),
      A ≠ "" → r ∈ search_documents s (some A) q k →
      pyEqO (mget r.metadata "username") (some (MVal.s A)) = true) ∧
    (∀ (s : VectorStore) (fm : Metadata) (q : List ℚ) (k : ℕ) (r : SearchRes),
      fm ≠ [] → r ∈ search s q k (some fm) →
      matchesFilter r.metadata fm = true) := by
  have hgen : ∀ (s : VectorStore) (fm : Metadata) (q : List ℚ) (k : ℕ) (r : SearchRes),
      fm ≠ [] → r ∈ search s q k (some fm) → matchesFilter r.metadata fm = true :=
    fun s fm q k r hne hr => search_filter_sound s fm q k r hne hr
  refine ⟨?_, hgen⟩
  intro s A q k r hA hr
  unfold search_documents at hr
  have hr2 : r ∈ search s q k
      (if A = "" then none else some [("username", MVal.s A)]) := hr
  rw [if_neg hA] at hr2
  have := hgen s [("username", MVal.s A)] q k r (by simp) hr2
  unfold matchesFilter at this
  simpa using this

theorem search_sAlice : search_documents sAlice (some "alice") [1] 5 = [rAlice] := by
  simp [search_documents, search, FaissIndex.searchTop, FaissIndex.ntotal,
    scoredFrom, formatHit, matchesFilter, mget, pyEqO, pyEq, otruthy, truthy,
    sAlice, rAlice, List.insertionSort, List.orderedInsert]

/-- Witness for C5: on the store `sAlice` the tenant-filtered search for
`alice` returns the single result `rAlice`, and the theorem certifies its
`username` metadata equals the requested tenant. -/
theorem c5_witness :
    "alice" ≠ "" ∧ rAlice ∈ search_documents sAlice (some "alice") [1] 5 ∧
    pyEqO (mget rAlice.metadata "username") (some (MVal.s "alice")) = true :=
  ⟨by decide, by rw [search_sAlice]; exact List.mem_singleton.mpr rfl,
   c5_tenant_isolation.1 sAlice "alice" [1] 5 rAlice (by decide)
     (by rw [search_sAlice]; exact List.mem_singleton.mpr rfl)⟩

theorem dotQ_cons (x y : ℚ) (l m : List ℚ) :
    dotQ (x :: l) (y :: m) = x * y + dotQ l m := by
  simp [dotQ]

theorem sumSq_cons (x : ℚ) (l : List ℚ) :
    sumSq (x :: l) = x * x + sumSq l := by
  simp [sumSq]

theorem dotQ_self_map_div (e : List ℚ) (n : ℚ) :
    dotQ (e.map (fun x => x / n)) (e.map (fun x => x / n)) = sumSq e / (n * n) := by
  induction e with
  | nil => simp [dotQ, sumSq]
  | cons x xs ih =>
    simp only [List.map_cons, dotQ_cons, sumSq_cons, ih]
    rw [div_mul_div_comm, div_add_div_same]

theorem sumSq_nil : sumSq [] = 0 := rfl

theorem dotQ_normalizeV_self (e : List ℚ) (hpos : 0 < sumSq e)
    (hex : ratSqrt (sumSq e) * ratSqrt (sumSq e) = sumSq e) :
    dotQ (normalizeV e) (normalizeV e) = 1 := by
  have hn0 : normQ e ≠ 0 := by
    intro h
    unfold normQ at h
    rw [h, mul_zero] at hex
    exact absurd hex.symm (ne_of_gt hpos)
  have hnpos : 0 < normQ e :=
    lt_of_le_of_ne (ratSqrt_nonneg (sumSq e)) (Ne.symm hn0)
  unfold normalizeV
  rw [if_pos hnpos, dotQ_self_map_div]
  unfold normQ
  rw [hex]
  exact div_self (ne_of_gt hpos)

/-- C7: inserting a chunk with embedding `e` into a fresh collection and
searching with query `e` returns exactly that chunk as the (only) result
with score 1, whenever `e` is a non-null vector whose norm the rational
model computes exactly. -/
theorem c7_insert_search_roundtrip (c : Chunk) (e : List ℚ) (k : ℕ)
    (hemb : c.embedding = some e) (hpos : 0 < sumSq e)
    (hex : ratSqrt (sumSq e) * ratSqrt (sumSq e) = sumSq e)
    (hdel : otruthy (mget c.metadata "deleted") = false)
    (hk : 1 ≤ k) :
    ∃ ids s', add_documents VectorStore.init [c] = .ok (ids, s') ∧
      ∃ r : SearchRes, search s' e k none = [r] ∧ ids = [r.id] ∧
        r.content = c.content ∧ r.score = 1 := by
  have hne : e ≠ [] := by
    intro h
    rw [h] at hpos
    exact absurd hpos (by norm_num [sumSq])
  have he : hasEmb c = true := by
    unfold hasEmb
    rw [hemb]
    simpa using hne
  have hd : dedupSkip VectorStore.init c = false := by
    unfold dedupSkip
    cases hh : mget c.metadata "doc_hash" with
    | none => rfl
    | some h => simp [document_exists_by_hash, VectorStore.init]
  rw [add_single_kept VectorStore.init c e he hd hemb]
  unfold addFinish
  rw [if_neg (by simp)]
  rw [if_neg (by simp [normalizeV_length])]
  simp only [List.headD_cons, normalizeV_length, VectorStore.init]
  rw [if_neg (by simp)]
  rw [if_neg (by simp)]
  refine ⟨_, _, rfl, ?_⟩
  refine ⟨⟨(chunkId c 0).1, c.content, clean_metadata c.metadata, 1⟩, ?_, rfl, rfl, rfl⟩
  simp only [storeDocs, saveStore, dataOf, FaissIndex.addVecs, dset, List.nil_append,
    List.any_nil, Bool.false_eq_true, if_false, List.length_nil, List.length_cons,
    List.length_map, Nat.lt_irrefl, List.singleton_append]
  simp only [search, FaissIndex.ntotal, List.length_cons, List.length_nil]
  rw [if_neg (by simp)]
  simp only [FaissIndex.searchTop, scoredFrom, dotQ_normalizeV_self e hpos hex,
    List.insertionSort, List.orderedInsert, Nat.min_eq_right hk, List.take,
    List.filterMap, formatHit, List.get?, mget_clean, hdel]
  simp

theorem sumSq_one : sumSq [(1 : ℚ)] = 1 := by
  norm_num [sumSq]

theorem ratSqrt_one : ratSqrt 1 = 1 := by
  have h : natSqrt 1 = 1 := by decide
  unfold ratSqrt
  norm_num [h]

/-- Witness for C7: the chunk `cGood` with embedding `[1]` round-trips
through a fresh store — searching with `[1]` returns it as the only
result with score 1. -/
theorem c7_witness :
    cGood.embedding = some [1] ∧ 0 < sumSq [(1 : ℚ)] ∧
    ratSqrt (sumSq [(1 : ℚ)]) * ratSqrt (sumSq [(1 : ℚ)]) = sumSq [(1 : ℚ)] ∧
    otruthy (mget cGood.metadata "deleted") = false ∧
    (∃ ids s', add_documents VectorStore.init [cGood] = .ok (ids, s') ∧
      ∃ r : SearchRes, search s' [1] 5 none = [r] ∧ ids = [r.id] ∧
        r.content = cGood.content ∧ r.score = 1) :=
  ⟨rfl, by rw [sumSq_one]; norm_num,
   by rw [sumSq_one, ratSqrt_one]; norm_num, rfl,
   c7_insert_search_roundtrip cGood [1] 5 rfl
     (by rw [sumSq_one]; norm_num)
     (by rw [sumSq_one, ratSqrt_one]; norm_num)
     rfl (by norm_num)⟩

theorem dget_eq_none_of_not_mem (d : List (String × ℕ)) (k : String)
    (h : k ∉ d.map Prod.fst) : dget d k = none := by
  unfold dget
  rw [List.find?_eq_none.mpr]
  · rfl
  · intro p hp
    simp only [beq_iff_eq]
    intro hk
    exact h (List.mem_map.mpr ⟨p, hp, hk⟩)

theorem mem_keys_dset (d : List (String × ℕ)) (k : String) (v : ℕ) (x : String)
    (h : x ∈ (dset d k v).map Prod.fst) : x ∈ d.map Prod.fst ∨ x = k := by
  unfold dset at h
  split at h
  · obtain ⟨p, hp, hx⟩ := List.mem_map.mp h
    obtain ⟨p0, hp0, hpeq⟩ := List.mem_map.mp hp
    by_cases hk : (p0.1 == k) = true
    · rw [if_pos hk] at hpeq
      right
      rw [← hpeq] at hx
      exact hx.symm
    · rw [if_neg hk] at hpeq
      left
      rw [← hpeq] at hx
      exact List.mem_map.mpr ⟨p0, hp0, hx⟩
  · rw [List.map_append] at h
    rcases List.mem_append.mp h with h1 | h1
    · exact Or.inl h1
    · right
      simpa using h1

theorem mem_keys_foldl_dset :
    ∀ (l d : List (String × ℕ)) (x : String),
      x ∈ ((l.foldl (fun d p => dset d p.1 p.2) d).map Prod.fst) →
      x ∈ d.map Prod.fst ∨ x ∈ l.map Prod.fst := by
  intro l
  induction l with
  | nil => intro d x h; exact Or.inl h
  | cons p rest ih =>
    intro d x h
    rw [List.foldl_cons] at h
    rcases ih (dset d p.1 p.2) x h with h1 | h1
    · rcases mem_keys_dset d p.1 p.2 x h1 with h2 | h2
      · exact Or.inl h2
      · exact Or.inr (by simp [h2])
    · exact Or.inr (by simp [h1])

theorem dget_buildDict_none (l : List (String × ℕ)) (k : String)
    (h : k ∉ l.map Prod.fst) : dget (buildDict l) k = none := by
  apply dget_eq_none_of_not_mem
  intro hmem
  rcases mem_keys_foldl_dset l [] k hmem with h1 | h1
  · exact absurd h1 (by simp)
  · exact h h1

theorem dset_append_of_not_mem (d : List (String × ℕ)) (k : String) (v : ℕ)
    (h : k ∉ d.map Prod.fst) : dset d k v = d ++ [(k, v)] := by
  unfold dset
  rw [if_neg]
  intro hany
  obtain ⟨p, hp, hk⟩ := List.any_eq_true.mp hany
  exact h (List.mem_map.mpr ⟨p, hp, by simpa using hk⟩)

theorem foldl_dset_length :
    ∀ (l d : List (String × ℕ)),
      (∀ p ∈ l, p.1 ∉ d.map Prod.fst) → (l.map Prod.fst).Nodup →
      (l.foldl (fun d p => dset d p.1 p.2) d).length = d.length + l.length := by
  intro l
  induction l with
  | nil => intro d _ _; simp
  | cons p rest ih =>
    intro d hdisj hnd
    rw [List.foldl_cons, dset_append_of_not_mem d p.1 p.2 (hdisj p (by simp))]
    have hnd' : (rest.map Prod.fst).Nodup := by
      rw [List.map_cons] at hnd
      exact hnd.of_cons
    have hhead : p.1 ∉ rest.map Prod.fst := by
      rw [List.map_cons] at hnd
      exact (List.nodup_cons.mp hnd).1
    have hdisj' : ∀ q ∈ rest, q.1 ∉ (d ++ [(p.1, p.2)]).map Prod.fst := by
      intro q hq
      rw [List.map_append]
      intro hmem
      rcases List.mem_append.mp hmem with h1 | h1
      · exact hdisj q (by simp [hq]) h1
      · have : q.1 = p.1 := by simpa using h1
        exact hhead (this ▸ List.mem_map.mpr ⟨q, hq, rfl⟩)
    rw [ih (d ++ [(p.1, p.2)]) hdisj' hnd']
    simp
    omega

theorem buildDict_length (l : List (String × ℕ)) (hnd : (l.map Prod.fst).Nodup) :
    (buildDict l).length = l.length := by
  unfold buildDict
  rw [foldl_dset_length l [] (by simp) hnd]
  simp

theorem collectActive_snd (E : List (List ℚ)) (d : ℕ) (hd : 0 < d) :
    ∀ (l : List Doc) (i : ℕ),
      (∀ j, j < l.length → ∃ e, E.get? (i + j) = some e ∧ e.length = d) →
      (collectActive E i l).2.length = (l.filter isLive).length ∧
      ∀ e ∈ (collectActive E i l).2, e.length = d := by
  intro l
  induction l with
  | nil => intro i _; exact ⟨rfl, by intro e he; exact absurd he (by simp [collectActive])⟩
  | cons d0 rest ih =>
    intro i h
    have hih := ih (i + 1) (by
      intro j hj
      have := h (j + 1) (by simpa using Nat.succ_lt_succ hj)
      rwa [show i + (j + 1) = i + 1 + j by omega] at this)
    obtain ⟨e, hge, hlen⟩ := h 0 (by simp)
    rw [Nat.add_zero] at hge
    have hene : e.isEmpty = false := by
      cases e
      · rw [List.length_nil] at hlen; omega
      · rfl
    unfold collectActive
    by_cases hdel : otruthy (mget d0.metadata "deleted") = true
    · simp only [hdel, if_true, List.filter_cons]
      have : isLive d0 = false := by
        unfold isLive
        rw [hdel]
        rfl
      rw [this]
      simpa using hih
    · have hdel' : otruthy (mget d0.metadata "deleted") = false := by
        cases hx : otruthy (mget d0.metadata "deleted")
        · rfl
        · exact absurd hx hdel
      have hlive : isLive d0 = true := by
        unfold isLive
        rw [hdel']
        rfl
      simp only [hdel', Bool.false_eq_true, if_false, hge, hene, List.filter_cons, hlive,
        if_true, List.length_cons]
      refine ⟨by rw [hih.1], ?_⟩
      intro e' he'
      rcases List.mem_cons.mp he' with h1 | h1
      · rw [h1]; exact hlen
      · exact hih.2 e' h1

/-- C2: on a well-formed store (aligned embeddings, distinct ids), a run
of compaction with live documents remaining succeeds and leaves the index
vector count, the documents-list length and the id-map size all equal;
with no live documents remaining, the collection is instead reset to empty
— index dropped, documents and id map emptied, persisted files deleted. -/
theorem c2_compaction_invariant (s : VectorStore)
    (hA : EmbAligned s) (hN : IdsNodup s) :
    (0 < count_documents s →
      (compact_index s).2 = true ∧
      ∃ ix, (compact_index s).1.index = some ix ∧
        ix.ntotal = (compact_index s).1.documents.length ∧
        (compact_index s).1.id_to_idx.length = (compact_index s).1.documents.length) ∧
    (count_documents s = 0 →
      compact_index s = (reset_collection s, true) ∧
      (reset_collection s).index = none ∧ (reset_collection s).documents = [] ∧
      (reset_collection s).id_to_idx = [] ∧ (reset_collection s).saved = none) := by
  obtain ⟨hlen, d, hd0, hall⟩ := hA
  have hr1 := collectActive_fst s.embeddings s.documents 0
  constructor
  · intro hpos
    rw [count_documents_eq_filter] at hpos
    have h1ne : (collectActive s.embeddings 0 s.documents).1 ≠ [] := by
      rw [hr1]
      intro h
      rw [h] at hpos
      simp at hpos
    have hsnd := collectActive_snd s.embeddings d hd0 s.documents 0 (by
      intro j hj
      have hjE : j < s.embeddings.length := by rw [hlen]; exact hj
      refine ⟨s.embeddings.get ⟨j, hjE⟩, ?_, hall _ (List.get_mem _ _ _)⟩
      rw [Nat.zero_add]
      exact List.get?_eq_get hjE)
    rcases hr2 : (collectActive s.embeddings 0 s.documents).2 with _ | ⟨e0, es⟩
    · exfalso
      have h0 : (s.documents.filter isLive).length = 0 := by
        have h2 := hsnd.1
        rw [hr2] at h2
        simpa using h2.symm
      omega
    · have he0 : e0.length = d := hsnd.2 e0 (by rw [hr2]; exact List.mem_cons_self _ _)
      have halltrue : (e0 :: es).all (fun e => e.length = e0.length) = true := by
        rw [List.all_eq_true]
        intro e he
        have hde : e.length = d := hsnd.2 e (by rw [hr2]; exact he)
        simp [hde, he0]
      have hlens : es.length + 1 = (s.documents.filter isLive).length := by
        have h2 := hsnd.1
        rw [hr2] at h2
        simpa using h2
      unfold compact_index
      rw [if_neg h1ne, hr2]
      dsimp only
      rw [if_neg (by simp [halltrue])]
      refine ⟨rfl, ?_⟩
      refine ⟨⟨e0.length,
        (e0 :: es).map (fun e => e.map (fun x => x / (normQ e + eps)))⟩, ?_, ?_, ?_⟩
      · simp [saveStore]
      · simp only [saveStore, FaissIndex.ntotal, List.length_map, List.length_cons]
        rw [hr1, ← hlens]
      · simp only [saveStore]
        have hkeys : ((((List.range (collectActive s.embeddings 0 s.documents).1.length).zip
            ((collectActive s.embeddings 0 s.documents).1.map Doc.id)).map
              (fun p => (p.2, p.1))).map Prod.fst) =
            (collectActive s.embeddings 0 s.documents).1.map Doc.id := by
          rw [List.map_map]
          exact List.map_snd_zip _ _ (by simp)
        have hnodup : (((List.range (collectActive s.embeddings 0 s.documents).1.length).zip
            ((collectActive s.embeddings 0 s.documents).1.map Doc.id)).map
              (fun p => (p.2, p.1)) |>.map Prod.fst).Nodup := by
          rw [hkeys, hr1]
          exact ((List.filter_sublist s.documents).map Doc.id).nodup hN
        rw [buildDict_length _ hnodup]
        simp
  · intro hzero
    rw [count_documents_eq_filter] at hzero
    have h1 : (collectActive s.embeddings 0 s.documents).1 = [] := by
      rw [hr1]
      exact List.length_eq_zero.mp hzero
    have hc : compact_index s = (reset_collection s, true) := by
      unfold compact_index
      rw [if_pos h1]
    exact ⟨hc, rfl, rfl, rfl, rfl⟩

/-- Witness for C2: the store `sComp` holds one live document and one
tombstone, is aligned and has distinct ids; the theorem applies to it. -/
theorem c2_witness :
    EmbAligned sComp ∧ IdsNodup sComp ∧
    ((0 < count_documents sComp →
      (compact_index sComp).2 = true ∧
      ∃ ix, (compact_index sComp).1.index = some ix ∧
        ix.ntotal = (compact_index sComp).1.documents.length ∧
        (compact_index sComp).1.id_to_idx.length =
          (compact_index sComp).1.documents.length) ∧
    (count_documents sComp = 0 →
      compact_index sComp = (reset_collection sComp, true) ∧
      (reset_collection sComp).index = none ∧
      (reset_collection sComp).documents = [] ∧
      (reset_collection sComp).id_to_idx = [] ∧
      (reset_collection sComp).saved = none)) := by
  have hA : EmbAligned sComp := by
    refine ⟨rfl, 1, Nat.one_pos, ?_⟩
    intro e he
    have h1 : e = [1] := by simpa [sComp] using he
    rw [h1]
    rfl
  have hN : IdsNodup sComp := by
    unfold IdsNodup sComp
    decide
  exact ⟨hA, hN, c2_compaction_invariant sComp hA hN⟩

theorem saveStore_documents (s : VectorStore) :
    (saveStore s).documents = s.documents := by
  unfold saveStore
  split <;> rfl

theorem saveStore_id_to_idx (s : VectorStore) :
    (saveStore s).id_to_idx = s.id_to_idx := by
  unfold saveStore
  split <;> rfl

theorem count_set_deleted :
    ∀ (docs : List Doc) (idx : ℕ) (h : idx < docs.length) (dDel : Doc),
      isLive (docs.get ⟨idx, h⟩) = true → isLive dDel = false →
      ((docs.set idx dDel).filter isLive).length + 1 = (docs.filter isLive).length := by
  intro docs
  induction docs with
  | nil => intro idx h; simp at h
  | cons d0 rest ih =>
    intro idx h dDel hlive hdead
    cases idx with
    | zero =>
      simp only [List.set_cons_zero, List.filter_cons]
      have h0 : isLive d0 = true := hlive
      rw [h0, hdead]
      simp
    | succ j =>
      have hj : j < rest.length := by simpa using h
      have hrec := ih j hj dDel hlive hdead
      simp only [List.set_cons_succ, List.filter_cons]
      cases hd : isLive d0 <;> simp [hd] <;> omega

theorem filter_set_id_ne (docs : List Doc) (idx : ℕ) (h : idx < docs.length)
    (dDel : Doc) (did : String)
    (hN : (docs.map Doc.id).Nodup)
    (hid : (docs.get ⟨idx, h⟩).id = did)
    (hdead : isLive dDel = false) :
    ∀ x ∈ (docs.set idx dDel).filter isLive, x.id ≠ did := by
  intro x hx hxid
  obtain ⟨hxmem, hxlive⟩ := List.mem_filter.mp hx
  obtain ⟨j, hj, hjx⟩ := List.getElem_of_mem hxmem
  by_cases hji : j = idx
  · subst hji
    have hset : (docs.set j dDel)[j] = dDel := List.getElem_set_self hj
    rw [hset] at hjx
    rw [← hjx] at hxlive
    rw [hdead] at hxlive
    exact absurd hxlive (by simp)
  · have hjlen : j < docs.length := by
      have := hj
      rwa [List.length_set] at this
    have hset : (docs.set idx dDel)[j] = docs[j] :=
      List.getElem_set_ne (fun hh => hji hh.symm) hj
    rw [hset] at hjx
    have hjm : j < (docs.map Doc.id).length := by
      rw [List.length_map]
      exact hjlen
    have him : idx < (docs.map Doc.id).length := by
      rw [List.length_map]
      exact h
    have h1 : (docs.map Doc.id)[j] = (docs.map Doc.id)[idx] := by
      rw [List.getElem_map, List.getElem_map, hjx, hxid]
      exact hid.symm
    exact hji (hN.getElem_inj_iff.mp h1)

theorem formatHit_id (s : VectorStore) (fm : Option Metadata) (h : ℚ × ℕ)
    (r : SearchRes) (hf : formatHit s fm h = some r) :
    ∃ doc ∈ s.documents, r.id = doc.id := by
  unfold formatHit at hf
  split at hf
  · exact absurd hf (by simp)
  · rename_i x doc heq
    have hdocmem : doc ∈ s.documents := List.get?_mem heq
    refine ⟨doc, hdocmem, ?_⟩
    split at hf
    · exact absurd hf (by simp)
    · rcases fm with _ | f
      · have hf2 : some (⟨doc.id, doc.content, doc.metadata, h.1⟩ : SearchRes) = some r := hf
        exact (congrArg SearchRes.id (Option.some.inj hf2)).symm
      · have hf2 : (if f = [] then
            some (⟨doc.id, doc.content, doc.metadata, h.1⟩ : SearchRes)
          else if matchesFilter doc.metadata f = true then
            some ⟨doc.id, doc.content, doc.metadata, h.1⟩
          else none) = some r := hf
        split at hf2
        · exact (congrArg SearchRes.id (Option.some.inj hf2)).symm
        · split at hf2
          · exact (congrArg SearchRes.id (Option.some.inj hf2)).symm
          · exact absurd hf2 (by simp)

theorem search_mem (st : VectorStore) (q : List ℚ) (k : ℕ) (fm : Option Metadata)
    (r : SearchRes) (hr : r ∈ search st q k fm) :
    ∃ doc ∈ st.documents, r.id = doc.id := by
  unfold search at hr
  rcases hix : st.index with _ | ix
  · rw [hix] at hr
    exact absurd hr (by simp)
  · rw [hix] at hr
    have hr2 : r ∈ (if ix.ntotal = 0 then ([] : List SearchRes)
        else (ix.searchTop (normalizeV q) (min k ix.ntotal)).filterMap
          (formatHit st fm)) := hr
    by_cases h0 : ix.ntotal = 0
    · rw [if_pos h0] at hr2
      exact absurd hr2 (by simp)
    · rw [if_neg h0] at hr2
      obtain ⟨h, _, hf⟩ := List.mem_filterMap.mp hr2
      exact formatHit_id st fm h r hf

theorem compact_idmap_none (s : VectorStore) (k : String)
    (hk : k ∉ (s.documents.filter isLive).map Doc.id) :
    dget (compact_index s).1.id_to_idx k = none := by
  have hr1 := collectActive_fst s.embeddings s.documents 0
  have hnone : dget (buildDict
      (((List.range (collectActive s.embeddings 0 s.documents).1.length).zip
        ((collectActive s.embeddings 0 s.documents).1.map Doc.id)).map
          (fun p => (p.2, p.1)))) k = none := by
    apply dget_buildDict_none
    intro hmem
    apply hk
    rw [List.map_map] at hmem
    have hmem2 : k ∈ ((List.range (collectActive s.embeddings 0 s.documents).1.length).zip
        ((collectActive s.embeddings 0 s.documents).1.map Doc.id)).map Prod.snd := hmem
    rw [List.map_snd_zip _ _ (by simp)] at hmem2
    rwa [hr1] at hmem2
  unfold compact_index
  by_cases h1 : (collectActive s.embeddings 0 s.documents).1 = []
  · rw [if_pos h1]
    rfl
  · rw [if_neg h1]
    dsimp only
    rcases hr2 : (collectActive s.embeddings 0 s.documents).2 with _ | ⟨e0, es⟩
    · exact hnone
    · dsimp only
      by_cases hall : ¬((e0 :: es).all fun e => decide (e.length = e0.length)) = true
      · rw [if_pos hall]
        exact hnone
      · rw [if_neg hall]
        rw [saveStore_id_to_idx]
        exact hnone

/-- C1: deleting a live document succeeds, and afterwards `get_document`
returns nothing for its id, no search — with any query, limit or filter —
returns a result bearing its id, and the live-document count has dropped
by exactly one. -/
theorem c1_tombstone_exclusion (s : VectorStore) (did : String) (idx : ℕ)
    (dOld : Doc) (hN : IdsNodup s)
    (hmap : dget s.id_to_idx did = some idx)
    (hdoc : s.documents.get? idx = some dOld)
    (hid : dOld.id = did)
    (hlive : isLive dOld = true) :
    (delete_document s did).1 = true ∧
    get_document (delete_document s did).2 did = none ∧
    (∀ (q : List ℚ) (k : ℕ) (fm : Option Metadata) (r : SearchRes),
      r ∈ search (delete_document s did).2 q k fm → r.id ≠ did) ∧
    count_documents (delete_document s did).2 + 1 = count_documents s := by
  obtain ⟨hlt, hget⟩ := List.get?_eq_some.mp hdoc
  have hdel : delete_document s did =
      (true, (compact_index (saveStore
        { s with
          documents := s.documents.set idx
            ⟨did, "", mset dOld.metadata "deleted" (MVal.b true)⟩,
          id_to_idx := s.id_to_idx.filter (fun p => !(p.1 == did)) })).1) := by
    unfold delete_document
    rw [hmap]
    dsimp only
    rw [hdoc]
  have hdead : isLive (⟨did, "", mset dOld.metadata "deleted" (MVal.b true)⟩ : Doc)
      = false := by
    unfold isLive
    rw [show mget (mset dOld.metadata "deleted" (MVal.b true)) "deleted"
      = some (MVal.b true) from mget_mset_self _ _ _]
    rfl
  have hidg : (s.documents.get ⟨idx, hlt⟩).id = did := by
    rw [hget]
    exact hid
  have hliveg : isLive (s.documents.get ⟨idx, hlt⟩) = true := by
    rw [hget]
    exact hlive
  have hne := filter_set_id_ne s.documents idx hlt
    ⟨did, "", mset dOld.metadata "deleted" (MVal.b true)⟩ did hN hidg hdead
  have hPdocs : (compact_index (saveStore
      { s with
        documents := s.documents.set idx
          ⟨did, "", mset dOld.metadata "deleted" (MVal.b true)⟩,
        id_to_idx := s.id_to_idx.filter (fun p => !(p.1 == did)) })).1.documents =
      (s.documents.set idx
        ⟨did, "", mset dOld.metadata "deleted" (MVal.b true)⟩).filter isLive := by
    rw [compact_documents, saveStore_documents]
  have hnotmem : did ∉ ((saveStore
      { s with
        documents := s.documents.set idx
          ⟨did, "", mset dOld.metadata "deleted" (MVal.b true)⟩,
        id_to_idx := s.id_to_idx.filter (fun p => !(p.1 == did)) }).documents.filter
          isLive).map Doc.id := by
    rw [saveStore_documents]
    intro hmem
    obtain ⟨x, hxmem, hxid⟩ := List.mem_map.mp hmem
    exact hne x hxmem hxid
  refine ⟨by rw [hdel], ?_, ?_, ?_⟩
  · rw [hdel]
    unfold get_document
    rw [compact_idmap_none _ did hnotmem]
  · intro q k fm r hr
    rw [hdel] at hr
    obtain ⟨doc, hdm, hidEq⟩ := search_mem _ q k fm r hr
    rw [hPdocs] at hdm
    intro hrid
    exact hne doc hdm (by rw [← hidEq]; exact hrid)
  · rw [hdel]
    have h1 := compact_count (saveStore
      { s with
        documents := s.documents.set idx
          ⟨did, "", mset dOld.metadata "deleted" (MVal.b true)⟩,
        id_to_idx := s.id_to_idx.filter (fun p => !(p.1 == did)) })
    rw [count_documents_eq_filter, count_documents_eq_filter] at h1
    rw [saveStore_documents] at h1
    rw [count_documents_eq_filter, count_documents_eq_filter, h1]
    exact count_set_deleted s.documents idx hlt _ hliveg hdead

/-- Witness for C1: deleting the live document `"a"` from the two-document
store `sDel` satisfies every conclusion of the tombstone-exclusion
theorem. -/
theorem c1_witness :
    IdsNodup sDel ∧ dget sDel.id_to_idx "a" = some 0 ∧
    sDel.documents.get? 0 = some ⟨"a", "ca", []⟩ ∧
    ((delete_document sDel "a").1 = true ∧
     get_document (delete_document sDel "a").2 "a" = none ∧
     (∀ (q : List ℚ) (k : ℕ) (fm : Option Metadata) (r : SearchRes),
       r ∈ search (delete_document sDel "a").2 q k fm → r.id ≠ "a") ∧
     count_documents (delete_document sDel "a").2 + 1 = count_documents sDel) :=
  ⟨by unfold IdsNodup sDel; decide, rfl, rfl,
   c1_tombstone_exclusion sDel "a" 0 ⟨"a", "ca", []⟩
     (by unfold IdsNodup sDel; decide) rfl rfl rfl rfl⟩

theorem scoredFrom_snd_ge (q : List ℚ) :
    ∀ (l : List (List ℚ)) (i : ℕ) (p : ℚ × ℕ), p ∈ scoredFrom q i l → i ≤ p.2 := by
  intro l
  induction l with
  | nil => intro i p hp; exact absurd hp (by simp [scoredFrom])
  | cons v rest ih =>
    intro i p hp
    unfold scoredFrom at hp
    rcases List.mem_cons.mp hp with h | h
    · rw [h]
    · exact Nat.le_of_succ_le (ih (i + 1) p h)

theorem scoredFrom_pairwise (q : List ℚ) :
    ∀ (l : List (List ℚ)) (i : ℕ),
      (scoredFrom q i l).Pairwise (fun a b => a.2 < b.2) := by
  intro l
  induction l with
  | nil => intro i; simp [scoredFrom]
  | cons v rest ih =>
    intro i
    unfold scoredFrom
    refine List.Pairwise.cons ?_ (ih (i + 1))
    intro p hp
    exact Nat.lt_of_succ_le (scoredFrom_snd_ge q rest (i + 1) p hp)

theorem findIdx_id :
    ∀ (docs : List Doc), (docs.map Doc.id).Nodup →
      ∀ (j : ℕ) (hj : j < docs.length),
        docs.findIdx (fun d => d.id == (docs.get ⟨j, hj⟩).id) = j := by
  intro docs
  induction docs with
  | nil => intro _ j hj; simp at hj
  | cons d0 rest ih =>
    intro hN j hj
    rw [List.map_cons] at hN
    cases j with
    | zero =>
      rw [List.findIdx_cons]
      simp
    | succ j =>
      have hjr : j < rest.length := by simpa using hj
      have hgr : (d0 :: rest).get ⟨j + 1, hj⟩ = rest.get ⟨j, hjr⟩ := rfl
      rw [hgr, List.findIdx_cons]
      have hd0 : (d0.id == (rest.get ⟨j, hjr⟩).id) = false := by
        have hnotin : d0.id ∉ rest.map Doc.id := (List.nodup_cons.mp hN).1
        have hin : (rest.get ⟨j, hjr⟩).id ∈ rest.map Doc.id :=
          List.mem_map.mpr ⟨rest.get ⟨j, hjr⟩, List.get_mem _ _ _, rfl⟩
        rw [beq_eq_false_iff_ne]
        intro heq
        rw [heq] at hnotin
        exact hnotin hin
      rw [hd0]
      simp only [cond_false]
      rw [ih (List.nodup_cons.mp hN).2 j hjr]

theorem formatHit_score_pos (s : VectorStore) (fm : Option Metadata) (h : ℚ × ℕ)
    (r : SearchRes) (hN : IdsNodup s) (hf : formatHit s fm h = some r) :
    r.score = h.1 ∧ docPos s r.id = h.2 := by
  unfold formatHit at hf
  split at hf
  · exact absurd hf (by simp)
  · rename_i x doc heq
    obtain ⟨hb, hgetd⟩ := List.get?_eq_some.mp heq
    have hr : r = ⟨doc.id, doc.content, doc.metadata, h.1⟩ := by
      split at hf
      · exact absurd hf (by simp)
      · rcases fm with _ | f
        · exact (Option.some.inj hf).symm
        · have hf2 : (if f = [] then
              some (⟨doc.id, doc.content, doc.metadata, h.1⟩ : SearchRes)
            else if matchesFilter doc.metadata f = true then
              some ⟨doc.id, doc.content, doc.metadata, h.1⟩
            else none) = some r := hf
          split at hf2
          · exact (Option.some.inj hf2).symm
          · split at hf2
            · exact (Option.some.inj hf2).symm
            · exact absurd hf2 (by simp)
    rw [hr]
    refine ⟨rfl, ?_⟩
    show s.documents.findIdx (fun d => d.id == doc.id) = h.2
    have hfind := findIdx_id s.documents hN h.2 hb
    rw [hgetd] at hfind
    exact hfind

/-- C9: search results break similarity ties by insertion order — whenever
two returned results carry equal scores, the one ranked first resolves to
an earlier position in the stored documents list. -/
theorem c9_tie_insertion_order (s : VectorStore) (q : List ℚ) (k : ℕ)
    (fm : Option Metadata) (hN : IdsNodup s) :
    (search s q k fm).Pairwise
      (fun a b => a.score = b.score → docPos s a.id < docPos s b.id) := by
  unfold search
  rcases s.index with _ | ix
  · simp
  · dsimp only
    by_cases h0 : ix.ntotal = 0
    · rw [if_pos h0]
      simp
    · rw [if_neg h0]
      unfold FaissIndex.searchTop
      have hsorted : (List.insertionSort rankLE
          (scoredFrom (normalizeV q) 0 ix.vecs)).Pairwise rankLE :=
        List.sorted_insertionSort rankLE _
      have hperm := List.perm_insertionSort rankLE (scoredFrom (normalizeV q) 0 ix.vecs)
      have hne_scored : (scoredFrom (normalizeV q) 0 ix.vecs).Pairwise
          (fun a b => a.2 ≠ b.2) :=
        (scoredFrom_pairwise (normalizeV q) ix.vecs 0).imp (fun hlt => Nat.ne_of_lt hlt)
      have hnodup_scored : ((scoredFrom (normalizeV q) 0 ix.vecs).map Prod.snd).Nodup :=
        List.pairwise_map.mpr hne_scored
      have hnodup_sorted : ((List.insertionSort rankLE
          (scoredFrom (normalizeV q) 0 ix.vecs)).map Prod.snd).Nodup := by
        rw [(hperm.map Prod.snd).nodup_iff]
        exact hnodup_scored
      have hne_sorted : (List.insertionSort rankLE
          (scoredFrom (normalizeV q) 0 ix.vecs)).Pairwise (fun a b => a.2 ≠ b.2) :=
        List.pairwise_map.mp hnodup_sorted
      have hstrict : (List.insertionSort rankLE
          (scoredFrom (normalizeV q) 0 ix.vecs)).Pairwise
          (fun a b => b.1 < a.1 ∨ (a.1 = b.1 ∧ a.2 < b.2)) := by
        refine (hsorted.and hne_sorted).imp ?_
        rintro a b ⟨hle | ⟨heq, hle⟩, hne⟩
        · exact Or.inl hle
        · exact Or.inr ⟨heq, lt_of_le_of_ne hle hne⟩
      have htake := List.Pairwise.sublist
        (List.take_sublist (min k ix.ntotal) _) hstrict
      refine List.Pairwise.filterMap (formatHit s fm) ?_ htake
      intro a a' hstr r hr r' hr'
      have h1 := formatHit_score_pos s fm a r hN (Option.mem_def.mp hr)
      have h2 := formatHit_score_pos s fm a' r' hN (Option.mem_def.mp hr')
      intro hsc
      rw [h1.2, h2.2]
      rcases hstr with hlt | ⟨heq, hlt⟩
      · exfalso
        rw [h1.1, h2.1] at hsc
        rw [hsc] at hlt
        exact lt_irrefl _ hlt
      · exact hlt

/-- Witness for C9: the store `sDel` holds two documents with identical
vectors (an exact tie for any query), and the tie-break theorem applies
to it. -/
theorem c9_witness :
    IdsNodup sDel ∧
    (search sDel [1] 5 none).Pairwise
      (fun a b => a.score = b.score → docPos sDel a.id < docPos sDel b.id) :=
  ⟨by unfold IdsNodup sDel; decide,
   c9_tie_insertion_order sDel [1] 5 none (by unfold IdsNodup sDel; decide)⟩
